import Mathlib

/-!
# Verification of the similarity-service ranking core

Shallow embedding of `similarity-service/app` (Python):
* `text_processor.py` — `TextProcessor.clean_for_embedding` over `List Char`
  (ASCII character classes stand in for Python's Unicode `\w` / `\s` classes;
  only the class membership of each character matters to the properties below).
* `similarity_service.py` — `SimilarityService.compute_cosine_similarity`,
  `find_similar_entries`, `find_similar_entries_batch`.  Floating-point scores
  are modelled by exact rationals; the sentence-transformer model is an
  abstract deterministic function `emb : String → List ℚ`.  Python's stable
  `list.sort(key=..., reverse=True)` is modelled by `List.insertionSort` with
  the "score not below" relation, which is stable in the same sense.
-/

namespace SimilarityService

/-! ### Character classes -/

/-- Python whitespace (`str.split` / `str.strip` / regex `\s`), ASCII fragment. -/
def isPySpace (c : Char) : Bool :=
  c = ' ' || c = '\t' || c = '\n' || c = '\r' || c = '\x0b' || c = '\x0c'

/-- Regex `\w` (word character), ASCII fragment. -/
def isWordChar (c : Char) : Bool :=
  c.isAlphanum || c = '_'

/-- A character matched by `[^\w\s]` in `clean_for_embedding`'s regex. -/
def isSpecial (c : Char) : Bool :=
  !isWordChar c && !isPySpace c

theorem length_dropWhile_le (p : α → Bool) (l : List α) :
    (l.dropWhile p).length ≤ l.length :=
  (List.dropWhile_suffix p).sublist.length_le

/-! ### `clean_for_embedding` pipeline (text_processor.py, lines 43-69) -/

/-- Python `text.split()`: split on whitespace runs, discarding empty pieces. -/
def pySplit (l : List Char) : List (List Char) :=
  match l with
  | [] => []
  | c :: cs =>
    if isPySpace c then pySplit cs
    else (c :: cs.takeWhile (fun x => !isPySpace x)) ::
      pySplit (cs.dropWhile (fun x => !isPySpace x))
termination_by l.length
decreasing_by
  · simp only [List.length_cons]; omega
  · have := length_dropWhile_le (fun x => !isPySpace x) cs
    simp only [List.length_cons]; omega

/-- `' '.join(text.split())` (line 61): collapse whitespace runs to single spaces. -/
def joinSplit (l : List Char) : List Char :=
  List.intercalate [' '] (pySplit l)

/-- `re.sub(r'[^\w\s]{3,}', ' ', text)` (line 64): each maximal run of three or
more special characters becomes a single space. -/
def subSpecialRuns (l : List Char) : List Char :=
  match l with
  | [] => []
  | c :: cs =>
    if isSpecial c && decide (2 ≤ (cs.takeWhile isSpecial).length) then
      ' ' :: subSpecialRuns (cs.dropWhile isSpecial)
    else c :: subSpecialRuns cs
termination_by l.length
decreasing_by
  · have := length_dropWhile_le isSpecial cs
    simp only [List.length_cons]; omega
  · simp only [List.length_cons]; omega

/-- `re.sub(r'\s+', ' ', text)` (line 67): collapse whitespace runs to `' '`. -/
def collapseSpaces (l : List Char) : List Char :=
  match l with
  | [] => []
  | c :: cs =>
    if isPySpace c then ' ' :: collapseSpaces (cs.dropWhile isPySpace)
    else c :: collapseSpaces cs
termination_by l.length
decreasing_by
  · have := length_dropWhile_le isPySpace cs
    simp only [List.length_cons]; omega
  · simp only [List.length_cons]; omega

/-- Python `str.strip()` on the character list. -/
def stripList (l : List Char) : List Char :=
  (l.dropWhile isPySpace).rdropWhile isPySpace

/-- Python `str.strip()`; the service uses it only through truthiness tests. -/
def pyStrip (s : String) : String :=
  String.mk (stripList s.data)

/-- The whole body of `clean_for_embedding` after the `if not text` guard. -/
def cleanList (l : List Char) : List Char :=
  stripList (collapseSpaces (subSpecialRuns (joinSplit l)))

/-- `TextProcessor.clean_for_embedding` (text_processor.py, lines 43-69). -/
def clean_for_embedding (text : String) : String :=
  if text = "" then "" else String.mk (cleanList text.data)

/-! ### Similarity scorer (similarity_service.py, lines 53-102) -/

/-- `np.dot` on 1-D vectors. -/
def dotProduct (v1 v2 : List ℚ) : ℚ :=
  (List.zipWith (· * ·) v1 v2).sum

/-- Sum of squares of the components (the square of the Euclidean norm). -/
def normSq (v : List ℚ) : ℚ :=
  (v.map (fun x => x * x)).sum

/-- `np.linalg.norm`: the Euclidean norm, as a real number. -/
noncomputable def pyNorm (v : List ℚ) : ℝ :=
  Real.sqrt ((normSq v : ℚ) : ℝ)

open Classical in
/-- `SimilarityService.compute_cosine_similarity` (lines 53-76).  Vectors are
already 1-D, so the `flatten` calls are identities. -/
noncomputable def compute_cosine_similarity (vec1 vec2 : List ℚ) : ℝ :=
  if pyNorm vec1 = 0 ∨ pyNorm vec2 = 0 then 0
  else ((dotProduct vec1 vec2 : ℚ) : ℝ) / (pyNorm vec1 * pyNorm vec2)

/-- `SimilarityService.get_embeddings` (lines 78-102): clean each text, then
apply the (abstract, deterministic, batched) sentence-transformer encoder. -/
def get_embeddings (emb : String → List ℚ) (texts : List String) : List (List ℚ) :=
  texts.map (fun t => emb (clean_for_embedding t))

/-- The similarity score of one entry against one query: the dot product of
their embeddings (`np.dot(entry_embeddings, query_embedding)`, line 151). -/
def scoreOf (emb : String → List ℚ) (query entry : String) : ℚ :=
  dotProduct (emb (clean_for_embedding entry)) (emb (clean_for_embedding query))

/-! ### Ranking engine (similarity_service.py, lines 104-166 and 215-279) -/

/-- Class constant `SimilarityService.TOP_K`. -/
def TOP_K : ℤ := 5

/-- Class constant `SimilarityService.SIMILARITY_THRESHOLD`. -/
def SIMILARITY_THRESHOLD : ℚ := 3 / 10

/-- Python `x or d` for `x : Optional[int]`: `None` and `0` are falsy. -/
def pyOrInt (x : Option ℤ) (d : ℤ) : ℤ :=
  match x with
  | none => d
  | some v => if v = 0 then d else v

/-- Python `x or d` for `x : Optional[float]`: `None` and `0.0` are falsy. -/
def pyOrRat (x : Option ℚ) (d : ℚ) : ℚ :=
  match x with
  | none => d
  | some v => if v = 0 then d else v

/-- Python slicing `xs[:k]` for an `int` bound `k` (negative counts from the end). -/
def pyTake (k : ℤ) (xs : List α) : List α :=
  if 0 ≤ k then xs.take k.toNat else xs.take ((xs.length : ℤ) + k).toNat

/-- `valid_data` (lines 134-137): positions and texts of the non-blank entries. -/
def validData (entries : List String) : List (ℕ × String) :=
  entries.enum.filter (fun p => !(p.2 == "") && !(pyStrip p.2 == ""))

/-- `scored_entries` before sorting (lines 154-158): each valid entry whose
score reaches the threshold, tagged with its original index, in input order. -/
def scoredEntries (emb : String → List ℚ) (query : String)
    (vd : List (ℕ × String)) (threshold : ℚ) : List (ℕ × ℚ) :=
  vd.filterMap (fun p =>
    if threshold ≤ scoreOf emb query p.2 then some (p.1, scoreOf emb query p.2) else none)

/-- The sort relation of `scored_entries.sort(key=lambda x: x[1], reverse=True)`. -/
def scoreGe (a b : ℕ × ℚ) : Prop :=
  b.2 ≤ a.2

instance : DecidableRel scoreGe := fun a b => inferInstanceAs (Decidable (b.2 ≤ a.2))

instance : IsTotal (ℕ × ℚ) scoreGe := ⟨fun a b => le_total b.2 a.2⟩

instance : IsTrans (ℕ × ℚ) scoreGe := ⟨fun _ _ _ h1 h2 => le_trans h2 h1⟩

/-- `SimilarityService.find_similar_entries` (lines 104-166). -/
def find_similar_entries (emb : String → List ℚ) (query : String)
    (entries : List String) (top_k : Option ℤ) (threshold : Option ℚ) : List String :=
  if query = "" ∨ entries = [] then []
  else if validData entries = [] ∨ pyStrip query = "" then []
  else
    (pyTake (pyOrInt top_k TOP_K)
        (List.insertionSort scoreGe
          (scoredEntries emb query (validData entries) (pyOrRat threshold SIMILARITY_THRESHOLD)))).map
      (fun p => entries.getD p.1 "")

/-- `SimilarityService.find_similar_entries_batch` (lines 215-279). -/
def find_similar_entries_batch (emb : String → List ℚ) (queries : List String)
    (entries : List String) (top_k : Option ℤ) (threshold : Option ℚ) : List (List String) :=
  if queries = [] then []
  else if entries = [] then queries.map (fun _ => [])
  else if validData entries = [] then queries.map (fun _ => [])
  else
    queries.map (fun query =>
      if query = "" ∨ pyStrip query = "" then []
      else
        (pyTake (pyOrInt top_k TOP_K)
            (List.insertionSort scoreGe
              (scoredEntries emb query (validData entries)
                (pyOrRat threshold SIMILARITY_THRESHOLD)))).map
          (fun p => entries.getD p.1 ""))

end SimilarityService

namespace SimilarityService

/-! ### Shared helper lemmas -/

theorem mem_pyTake {k : ℤ} {xs : List α} {x : α} (h : x ∈ pyTake k xs) : x ∈ xs := by
  rw [pyTake] at h
  split at h <;> exact (List.take_sublist _ _).mem h

theorem length_pyTake_le {k : ℤ} (hk : 0 ≤ k) (xs : List α) :
    (pyTake k xs).length ≤ k.toNat := by
  rw [pyTake, if_pos hk, List.length_take]
  exact min_le_left _ _

theorem mem_scoredEntries {emb : String → List ℚ} {query : String}
    {vd : List (ℕ × String)} {t : ℚ} {p : ℕ × ℚ}
    (h : p ∈ scoredEntries emb query vd t) :
    (∃ e, (p.1, e) ∈ vd ∧ scoreOf emb query e = p.2) ∧ t ≤ p.2 := by
  rw [scoredEntries, List.mem_filterMap] at h
  obtain ⟨a, ha, hfa⟩ := h
  split at hfa
  · cases hfa
    exact ⟨⟨a.2, by simpa using ha, rfl⟩, by assumption⟩
  · cases hfa

theorem mem_validData {entries : List String} {p : ℕ × String}
    (h : p ∈ validData entries) : entries[p.1]? = some p.2 := by
  rw [validData, List.mem_filter] at h
  exact List.mem_enum_iff_getElem?.mp h.1

theorem validData_eq_nil {entries : List String}
    (h : ∀ e ∈ entries, pyStrip e = "") : validData entries = [] := by
  rw [validData, List.filter_eq_nil_iff]
  intro p hp
  have hmem : p.2 ∈ entries := List.getElem?_mem (List.mem_enum_iff_getElem?.mp hp)
  simp [h p.2 hmem]

/-- C1: the service coalesces caller-supplied `top_k`/`threshold` with
`x or DEFAULT` (lines 130-131).  `None` becomes the default as documented, and
any truthy in-bounds value is honoured — but an explicit `threshold = 0.0`
(allowed by `SimilarityRequest`, `ge=0.0`, documented as overriding the server
default) is falsy and is silently replaced by `0.3`: with a uniform score of
`1/100`, threshold `0` should keep the entry (`0 ≤ 1/100`) yet the call
returns `[]`, while the truthy threshold `1/100` keeps it. -/
theorem find_similar_entries_threshold_zero_replaced :
    pyOrRat none SIMILARITY_THRESHOLD = SIMILARITY_THRESHOLD
    ∧ pyOrInt none TOP_K = TOP_K
    ∧ pyOrRat (some (1 / 2)) SIMILARITY_THRESHOLD = 1 / 2
    ∧ pyOrInt (some 7) TOP_K = 7
    ∧ pyOrRat (some 0) SIMILARITY_THRESHOLD = SIMILARITY_THRESHOLD
    ∧ (0 : ℚ) ≤ scoreOf (fun _ => [1 / 10]) "query" "entry"
    ∧ find_similar_entries (fun _ => [1 / 10]) "query" ["entry"] none (some 0) = []
    ∧ find_similar_entries (fun _ => [1 / 10]) "query" ["entry"] none (some (1 / 100))
        = ["entry"] := by
  have h1 : validData ["entry"] = [(0, "entry")] := by decide
  have h2 : ¬("query" = "" ∨ ["entry"] = ([] : List String)) := by decide
  have h3 : ¬(validData ["entry"] = [] ∨ pyStrip "query" = "") := by decide
  refine ⟨rfl, rfl, ?_, by decide, ?_, ?_, ?_, ?_⟩
  · norm_num [pyOrRat]
  · norm_num [pyOrRat]
  · norm_num [scoreOf, dotProduct]
  · rw [find_similar_entries, if_neg h2, if_neg h3, h1]
    norm_num [scoredEntries, scoreOf, dotProduct, pyOrRat, SIMILARITY_THRESHOLD, pyTake]
  · rw [find_similar_entries, if_neg h2, if_neg h3, h1]
    norm_num [scoredEntries, scoreOf, dotProduct, pyOrRat, SIMILARITY_THRESHOLD,
      pyTake, pyOrInt, TOP_K, List.insertionSort, List.orderedInsert, List.getD]

/-- C9: `compute_cosine_similarity` returns exactly `0.0` whenever either
input vector has zero Euclidean norm, and the division branch is taken only
when both norms are nonzero (lines 69-76). -/
theorem compute_cosine_similarity_zero_norm (v1 v2 : List ℚ) :
    ((pyNorm v1 = 0 ∨ pyNorm v2 = 0) → compute_cosine_similarity v1 v2 = 0)
    ∧ (pyNorm v1 ≠ 0 → pyNorm v2 ≠ 0 →
        compute_cosine_similarity v1 v2
          = ((dotProduct v1 v2 : ℚ) : ℝ) / (pyNorm v1 * pyNorm v2)) := by
  constructor
  · intro h
    rw [compute_cosine_similarity, if_pos h]
  · intro h1 h2
    rw [compute_cosine_similarity, if_neg (by tauto)]

theorem compute_cosine_similarity_zero_norm_witness :
    (pyNorm [(0 : ℚ), 0] = 0 ∨ pyNorm [(1 : ℚ), 2] = 0)
    ∧ compute_cosine_similarity [(0 : ℚ), 0] [(1 : ℚ), 2] = 0 := by
  have h : pyNorm [(0 : ℚ), 0] = 0 := by
    simp [pyNorm, normSq]
  exact ⟨Or.inl h, (compute_cosine_similarity_zero_norm _ _).1 (Or.inl h)⟩

/-- C4: the batched ranking agrees with the single-query ranking on a
singleton batch, for every query, entry list, `top_k` and `threshold`
(the embedding provider `emb` is a fixed function, hence deterministic). -/
theorem find_similar_entries_batch_singleton (emb : String → List ℚ)
    (q : String) (entries : List String) (tk : Option ℤ) (th : Option ℚ) :
    find_similar_entries_batch emb [q] entries tk th
      = [find_similar_entries emb q entries tk th] := by
  rw [find_similar_entries_batch, find_similar_entries]
  by_cases he : entries = [] <;> by_cases hv : validData entries = []
    <;> by_cases hq : q = "" <;> by_cases hs : pyStrip q = ""
    <;> simp [he, hv, hq, hs]

/-- C5: the ranking returns at most `top_k` entries — for any effective
nonnegative `top_k` (any caller-supplied value in the documented range `[1, 50]`,
and the default `5`, is nonnegative), the output length is bounded by it. -/
theorem find_similar_entries_length_le (emb : String → List ℚ) (q : String)
    (entries : List String) (tk : Option ℤ) (th : Option ℚ)
    (hk : 0 ≤ pyOrInt tk TOP_K) :
    (find_similar_entries emb q entries tk th).length ≤ (pyOrInt tk TOP_K).toNat := by
  rw [find_similar_entries]
  split
  · simp
  · split
    · simp
    · rw [List.length_map]
      exact length_pyTake_le hk _

theorem find_similar_entries_length_le_witness :
    0 ≤ pyOrInt (some 3) TOP_K
    ∧ (find_similar_entries (fun _ => [1]) "a" ["b"] (some 3) none).length
        ≤ (pyOrInt (some 3) TOP_K).toNat :=
  ⟨by decide, find_similar_entries_length_le _ _ _ _ _ (by decide)⟩

/-- C6: an empty query, an empty entry list, or an entry list whose members
are all blank after trimming, each yield the empty result (the function is
total, so no error condition arises). -/
theorem find_similar_entries_degenerate (emb : String → List ℚ) (query : String)
    (entries : List String) (tk : Option ℤ) (th : Option ℚ)
    (h : query = "" ∨ entries = [] ∨ ∀ e ∈ entries, pyStrip e = "") :
    find_similar_entries emb query entries tk th = [] := by
  rw [find_similar_entries]
  rcases h with h | h | h
  · rw [if_pos (Or.inl h)]
  · rw [if_pos (Or.inr h)]
  · rcases eq_or_ne query "" with hq | hq
    · rw [if_pos (Or.inl hq)]
    · rcases eq_or_ne entries [] with he | he
      · rw [if_pos (Or.inr he)]
      · rw [if_neg (by simp [hq, he]), if_pos (Or.inl (validData_eq_nil h))]

theorem find_similar_entries_degenerate_witness :
    ("x" = "" ∨ (["", "  "] : List String) = [] ∨ ∀ e ∈ (["", "  "] : List String), pyStrip e = "")
    ∧ find_similar_entries (fun _ => [1]) "x" ["", "  "] none none = [] :=
  ⟨by decide, find_similar_entries_degenerate _ _ _ _ _ (by decide)⟩

/-- C7: every returned string is an element of the caller-supplied entry list
(the result is built as `entries[idx]` from surviving original indices, never
from the cleaned text). -/
theorem find_similar_entries_subset (emb : String → List ℚ) (q : String)
    (entries : List String) (tk : Option ℤ) (th : Option ℚ) :
    ∀ r ∈ find_similar_entries emb q entries tk th, r ∈ entries := by
  intro r hr
  rw [find_similar_entries] at hr
  split at hr
  · simp at hr
  · split at hr
    · simp at hr
    · rw [List.mem_map] at hr
      obtain ⟨p, hp, rfl⟩ := hr
      have hp' := (List.mem_insertionSort _).mp (mem_pyTake hp)
      obtain ⟨⟨e, he, -⟩, -⟩ := mem_scoredEntries hp'
      have hsome := mem_validData he
      obtain ⟨hlt, -⟩ := List.getElem?_eq_some.mp hsome
      rw [List.getD_eq_getElem _ _ hlt]
      exact List.getElem_mem hlt

theorem find_similar_entries_subset_witness : "b" ∈ (["b"] : List String) := by
  have h1 : validData ["b"] = [(0, "b")] := by decide
  have heval : find_similar_entries (fun _ => [1]) "a" ["b"] none none = ["b"] := by
    rw [find_similar_entries, if_neg (by decide), if_neg (by decide), h1]
    norm_num [scoredEntries, scoreOf, dotProduct, pyOrRat, SIMILARITY_THRESHOLD,
      pyTake, pyOrInt, TOP_K, List.insertionSort, List.orderedInsert, List.getD]
  exact find_similar_entries_subset (fun _ => [1]) "a" ["b"] none none "b"
    (by rw [heval]; exact List.mem_singleton.mpr rfl)

/-- C3: the filter step keeps exactly the candidates whose score is `≥` the
effective threshold (inclusive boundary), hence every scored candidate that
survives — in particular every one reaching the final output — has score `≥`
the threshold. -/
theorem scoredEntries_threshold (emb : String → List ℚ) (q : String)
    (vd : List (ℕ × String)) (t : ℚ) :
    scoredEntries emb q vd t
        = (vd.map (fun p => (p.1, scoreOf emb q p.2))).filter (fun p => decide (t ≤ p.2))
    ∧ (∀ p ∈ scoredEntries emb q vd t, t ≤ p.2)
    ∧ ∀ k : ℤ, ∀ p ∈ pyTake k (List.insertionSort scoreGe (scoredEntries emb q vd t)),
        t ≤ p.2 := by
  refine ⟨?_, fun p hp => (mem_scoredEntries hp).2, fun k p hp =>
    (mem_scoredEntries ((List.mem_insertionSort _).mp (mem_pyTake hp))).2⟩
  induction vd with
  | nil => rfl
  | cons a m ih =>
    rw [scoredEntries, List.filterMap_cons, List.map_cons, List.filter_cons]
    by_cases hta : t ≤ scoreOf emb q a.2
    · rw [if_pos hta, if_pos (by simpa using hta)]
      exact congrArg _ ih
    · rw [if_neg hta, if_neg (by simpa using hta)]
      exact ih

theorem scoredEntries_threshold_witness :
    ((0 : ℕ), (1 : ℚ)).2 ≥ (0 : ℚ) := by
  have h1 : scoredEntries (fun _ => [1]) "a" [(0, "b")] 0 = [(0, 1)] := by
    norm_num [scoredEntries, List.filterMap_cons, scoreOf, dotProduct]
  refine (scoredEntries_threshold (fun _ => [1]) "a" [(0, "b")] 0).2.2 5 (0, 1) ?_
  rw [h1]
  decide

/-! ### Stability of the sort step -/

theorem filter_orderedInsert (s : ℚ) (p : ℕ × ℚ) (l : List (ℕ × ℚ)) :
    (List.orderedInsert scoreGe p l).filter (fun q => decide (q.2 = s))
      = if p.2 = s then p :: l.filter (fun q => decide (q.2 = s))
        else l.filter (fun q => decide (q.2 = s)) := by
  induction l with
  | nil =>
    rw [List.orderedInsert, List.filter_cons]
    split_ifs with h1 h2 h2 <;> simp_all
  | cons b m ih =>
    rw [List.orderedInsert]
    by_cases hpb : scoreGe p b
    · rw [if_pos hpb]
      by_cases hps : p.2 = s
      · rw [if_pos hps, List.filter_cons (x := p), if_pos (by simpa using hps)]
      · rw [if_neg hps, List.filter_cons (x := p), if_neg (by simpa using hps)]
    · rw [if_neg hpb, List.filter_cons, ih]
      by_cases hbs : b.2 = s
      · have hps : ¬p.2 = s := fun hp => hpb (le_of_eq (hbs.trans hp.symm))
        rw [if_pos (by simpa using hbs), if_neg hps, if_neg hps,
          List.filter_cons, if_pos (by simpa using hbs)]
      · by_cases hps : p.2 = s
        · rw [if_neg (by simpa using hbs), if_pos hps, if_pos hps,
            List.filter_cons, if_neg (by simpa using hbs)]
        · rw [if_neg (by simpa using hbs), if_neg hps, if_neg hps,
            List.filter_cons, if_neg (by simpa using hbs)]

theorem filter_insertionSort (s : ℚ) (l : List (ℕ × ℚ)) :
    (List.insertionSort scoreGe l).filter (fun q => decide (q.2 = s))
      = l.filter (fun q => decide (q.2 = s)) := by
  induction l with
  | nil => rfl
  | cons a m ih =>
    rw [List.insertionSort, filter_orderedInsert, List.filter_cons]
    split_ifs with h1 h2 h2 <;> simp_all

/-- C2: the sorted scored list is descending by score (`scoreGe`), candidates
with exactly equal scores keep their original relative order (the sort is
stable: filtering any fixed score value commutes with sorting), and in the
non-degenerate branch the returned list is exactly this sorted list truncated
to `top_k` and mapped back to the original entry strings. -/
theorem find_similar_entries_sorted_stable (emb : String → List ℚ) (q : String)
    (entries : List String) (tk : Option ℤ) (th : Option ℚ)
    (h1 : ¬(q = "" ∨ entries = []))
    (h2 : ¬(validData entries = [] ∨ pyStrip q = "")) :
    List.Sorted scoreGe (List.insertionSort scoreGe
        (scoredEntries emb q (validData entries) (pyOrRat th SIMILARITY_THRESHOLD)))
    ∧ (∀ s : ℚ,
        (List.insertionSort scoreGe
            (scoredEntries emb q (validData entries) (pyOrRat th SIMILARITY_THRESHOLD))).filter
            (fun p => decide (p.2 = s))
          = (scoredEntries emb q (validData entries)
              (pyOrRat th SIMILARITY_THRESHOLD)).filter (fun p => decide (p.2 = s)))
    ∧ find_similar_entries emb q entries tk th
        = (pyTake (pyOrInt tk TOP_K)
            (List.insertionSort scoreGe
              (scoredEntries emb q (validData entries)
                (pyOrRat th SIMILARITY_THRESHOLD)))).map (fun p => entries.getD p.1 "") := by
  refine ⟨List.sorted_insertionSort _ _, fun s => filter_insertionSort s _, ?_⟩
  rw [find_similar_entries, if_neg h1, if_neg h2]

theorem find_similar_entries_sorted_stable_witness :
    List.Sorted scoreGe (List.insertionSort scoreGe
        (scoredEntries (fun _ => [(1 : ℚ)]) "a" (validData ["b"])
          (pyOrRat none SIMILARITY_THRESHOLD))) :=
  (find_similar_entries_sorted_stable (fun _ => [(1 : ℚ)]) "a" ["b"] none none
    (by decide) (by decide)).1

theorem pyStrip_empty : pyStrip "" = "" := by decide

/-- C8: the batch call never fails and returns one result per query, in query
order: a blank (whitespace-only) query at position `i` yields `[]` at position
`i`, and every non-blank query at position `i` yields exactly the single-query
ranking for it. -/
theorem find_similar_entries_batch_blank (emb : String → List ℚ)
    (queries : List String) (entries : List String)
    (tk : Option ℤ) (th : Option ℚ) :
    (find_similar_entries_batch emb queries entries tk th).length = queries.length
    ∧ (∀ (i : ℕ) (q : String), queries[i]? = some q → pyStrip q = "" →
        (find_similar_entries_batch emb queries entries tk th)[i]? = some [])
    ∧ (∀ (i : ℕ) (q : String), queries[i]? = some q → pyStrip q ≠ "" →
        (find_similar_entries_batch emb queries entries tk th)[i]?
          = some (find_similar_entries emb q entries tk th)) := by
  have hq_of : ∀ q : String, pyStrip q ≠ "" → q ≠ "" := by
    intro q h hq
    exact h (hq ▸ pyStrip_empty)
  rw [find_similar_entries_batch]
  by_cases hqs : queries = []
  · subst hqs
    refine ⟨by simp, ?_, ?_⟩ <;> intro i q hq <;> simp at hq
  · rw [if_neg hqs]
    by_cases he : entries = []
    · subst he
      rw [if_pos rfl]
      refine ⟨by simp, fun i q hq _ => ?_, fun i q hq hs => ?_⟩
      · have hi : i < queries.length := (List.getElem?_eq_some.mp hq).1
        simp [List.getElem?_map, hq, List.getElem?_replicate, hi]
      · have hi : i < queries.length := (List.getElem?_eq_some.mp hq).1
        rw [find_similar_entries, if_pos (Or.inr rfl)]
        simp [List.getElem?_map, hq, List.getElem?_replicate, hi]
    · rw [if_neg he]
      by_cases hv : validData entries = []
      · rw [if_pos hv]
        refine ⟨by simp, fun i q hq _ => ?_, fun i q hq hs => ?_⟩
        · have hi : i < queries.length := (List.getElem?_eq_some.mp hq).1
          simp [List.getElem?_map, hq, List.getElem?_replicate, hi]
        · have hi : i < queries.length := (List.getElem?_eq_some.mp hq).1
          rw [find_similar_entries, if_neg (by simp [hq_of q hs, he]),
            if_pos (Or.inl hv)]
          simp [List.getElem?_map, hq, List.getElem?_replicate, hi]
      · rw [if_neg hv]
        refine ⟨by simp, fun i q hq hs => ?_, fun i q hq hs => ?_⟩
        · simp only [List.getElem?_map, hq, Option.map_some']
          rw [if_pos (Or.inr hs)]
        · simp only [List.getElem?_map, hq, Option.map_some']
          rw [if_neg (by simp [hq_of q hs, hs]),
            find_similar_entries, if_neg (by simp [hq_of q hs, he]),
            if_neg (by simp [hv, hs])]

theorem find_similar_entries_batch_blank_witness :
    (find_similar_entries_batch (fun _ => [(1 : ℚ)]) [" ", "a"] ["b"] none none)[0]?
        = some []
    ∧ (find_similar_entries_batch (fun _ => [(1 : ℚ)]) [" ", "a"] ["b"] none none)[1]?
        = some (find_similar_entries (fun _ => [(1 : ℚ)]) "a" ["b"] none none) :=
  ⟨(find_similar_entries_batch_blank (fun _ => [(1 : ℚ)]) [" ", "a"] ["b"] none none).2.1
      0 " " rfl (by decide),
   (find_similar_entries_batch_blank (fun _ => [(1 : ℚ)]) [" ", "a"] ["b"] none none).2.2
      1 "a" rfl (by decide)⟩

/-! ### Invariants of cleaned text (toward idempotence of `clean_for_embedding`) -/

/-- Every whitespace character is a plain `' '`. -/
def SpacesSimple (l : List Char) : Prop :=
  ∀ c ∈ l, isPySpace c = true → c = ' '

/-- No two adjacent whitespace characters. -/
def NoAdjSpace (l : List Char) : Prop :=
  ∀ a b : Char, [a, b] <:+: l → ¬(isPySpace a = true ∧ isPySpace b = true)

/-- No three adjacent special characters (so the `{3,}` regex cannot match). -/
def NoTriple (l : List Char) : Prop :=
  ∀ a b c : Char, [a, b, c] <:+: l →
    ¬(isSpecial a = true ∧ isSpecial b = true ∧ isSpecial c = true)

/-- Neither end of the list is whitespace. -/
def NoEdgeSpace (l : List Char) : Prop :=
  (∀ c, l.head? = some c → isPySpace c = false)
  ∧ (∀ c, l.getLast? = some c → isPySpace c = false)

theorem not_space_of_special {c : Char} (h : isSpecial c = true) :
    isPySpace c = false := by
  rw [isSpecial, Bool.and_eq_true] at h
  simpa using h.2

theorem pair_infix_cons {a b x : α} {xs : List α} (h : [a, b] <:+: x :: xs) :
    (a = x ∧ xs.head? = some b) ∨ [a, b] <:+: xs := by
  rcases List.infix_cons_iff.mp h with h | h
  · obtain ⟨u, hu⟩ := h
    cases xs with
    | nil => simp at hu
    | cons y ys =>
      obtain ⟨h1, h2, -⟩ := by simpa using hu
      exact Or.inl ⟨h1, by simp [h2]⟩
  · exact Or.inr h

theorem triple_infix_cons {a b c x : α} {xs : List α} (h : [a, b, c] <:+: x :: xs) :
    (a = x ∧ [b, c] <+: xs) ∨ [a, b, c] <:+: xs := by
  rcases List.infix_cons_iff.mp h with h | h
  · obtain ⟨u, hu⟩ := h
    cases xs with
    | nil => simp at hu
    | cons y ys =>
      obtain ⟨h1, h2, h3⟩ := by simpa using hu
      exact Or.inl ⟨h1, by rw [h2]; exact ⟨u, by simpa using h3⟩⟩
  · exact Or.inr h

theorem pair_prefix_iff {a b : α} {m : List α} :
    [a, b] <+: m ↔ ∃ m', m = a :: b :: m' := by
  constructor
  · rintro ⟨u, hu⟩
    exact ⟨u, hu.symm⟩
  · rintro ⟨m', rfl⟩
    exact ⟨m', rfl⟩

theorem noAdjSpace_mono {m l : List Char} (hm : m <:+: l) (h : NoAdjSpace l) :
    NoAdjSpace m :=
  fun a b hab => h a b (hab.trans hm)

theorem noTriple_mono {m l : List Char} (hm : m <:+: l) (h : NoTriple l) :
    NoTriple m :=
  fun a b c habc => h a b c (habc.trans hm)

theorem spacesSimple_mono {m l : List Char} (hm : m <:+: l) (h : SpacesSimple l) :
    SpacesSimple m :=
  fun c hc => h c (hm.sublist.subset hc)

theorem noAdjSpace_tail {x : Char} {xs : List Char} (h : NoAdjSpace (x :: xs)) :
    NoAdjSpace xs :=
  noAdjSpace_mono ⟨[x], [], by simp⟩ h

theorem noTriple_tail {x : Char} {xs : List Char} (h : NoTriple (x :: xs)) :
    NoTriple xs :=
  noTriple_mono ⟨[x], [], by simp⟩ h

theorem noAdjSpace_cons {x : Char} {xs : List Char}
    (hx : ∀ b, xs.head? = some b → ¬(isPySpace x = true ∧ isPySpace b = true))
    (h : NoAdjSpace xs) : NoAdjSpace (x :: xs) := by
  intro a b hab
  rcases pair_infix_cons hab with ⟨rfl, hb⟩ | hab
  · exact hx b hb
  · exact h a b hab

theorem noTriple_cons {x : Char} {xs : List Char}
    (hx : ∀ b c, [b, c] <+: xs →
      ¬(isSpecial x = true ∧ isSpecial b = true ∧ isSpecial c = true))
    (h : NoTriple xs) : NoTriple (x :: xs) := by
  intro a b c habc
  rcases triple_infix_cons habc with ⟨rfl, hbc⟩ | habc
  · exact hx b c hbc
  · exact h a b c habc

theorem noTriple_cons_of_head {x : Char} {xs : List Char}
    (hx : isSpecial x = false) (h : NoTriple xs) : NoTriple (x :: xs) :=
  noTriple_cons (fun _ _ _ hcon => by rw [hx] at hcon; exact absurd hcon.1 (by simp)) h

/-! ### Unfolding equations for the pipeline stages -/

theorem pySplit_nil : pySplit [] = [] := by
  simp [pySplit]

theorem pySplit_cons_space {c : Char} {cs : List Char} (h : isPySpace c = true) :
    pySplit (c :: cs) = pySplit cs := by
  rw [pySplit]
  simp [h]

theorem pySplit_cons_word {c : Char} {cs : List Char} (h : isPySpace c = false) :
    pySplit (c :: cs)
      = (c :: cs.takeWhile (fun x => !isPySpace x))
        :: pySplit (cs.dropWhile (fun x => !isPySpace x)) := by
  rw [pySplit]
  simp [h]

theorem subSpecialRuns_nil : subSpecialRuns [] = [] := by
  simp [subSpecialRuns]

theorem subSpecialRuns_cons_long {c : Char} {cs : List Char}
    (hc : isSpecial c = true) (hlen : 2 ≤ (cs.takeWhile isSpecial).length) :
    subSpecialRuns (c :: cs) = ' ' :: subSpecialRuns (cs.dropWhile isSpecial) := by
  rw [subSpecialRuns]
  simp [hc, hlen]

theorem subSpecialRuns_cons_short {c : Char} {cs : List Char}
    (h : ¬(isSpecial c = true ∧ 2 ≤ (cs.takeWhile isSpecial).length)) :
    subSpecialRuns (c :: cs) = c :: subSpecialRuns cs := by
  rw [subSpecialRuns]
  rw [if_neg (by simpa using h)]

theorem collapseSpaces_nil : collapseSpaces [] = [] := by
  simp [collapseSpaces]

theorem collapseSpaces_cons_space {c : Char} {cs : List Char} (h : isPySpace c = true) :
    collapseSpaces (c :: cs) = ' ' :: collapseSpaces (cs.dropWhile isPySpace) := by
  rw [collapseSpaces]
  simp [h]

theorem collapseSpaces_cons_not {c : Char} {cs : List Char} (h : isPySpace c = false) :
    collapseSpaces (c :: cs) = c :: collapseSpaces cs := by
  rw [collapseSpaces]
  simp [h]

/-! ### Establishment of the invariants along the pipeline -/

theorem head?_dropWhile_not {p : Char → Bool} {d : Char} :
    ∀ {m : List Char}, (m.dropWhile p).head? = some d → p d = false := by
  intro m
  induction m with
  | nil => intro h; simp at h
  | cons a m ih =>
    intro h
    by_cases ha : p a = true
    · rw [List.dropWhile_cons_of_pos ha] at h
      exact ih h
    · rw [List.dropWhile_cons_of_neg ha] at h
      obtain rfl : a = d := by simpa using h
      simpa using ha

theorem isPrefix_head?_eq {l₁ l₂ : List α} (h : l₁ <+: l₂) (hne : l₁ ≠ []) :
    l₂.head? = l₁.head? := by
  obtain ⟨u, rfl⟩ := h
  cases l₁ with
  | nil => exact absurd rfl hne
  | cons a as => rfl

theorem head?_collapseSpaces_not_space {m : List Char} {x : Char}
    (h : (collapseSpaces m).head? = some x) (hx : isPySpace x = false) :
    m.head? = some x := by
  cases m with
  | nil => rw [collapseSpaces_nil] at h; simp at h
  | cons d ds =>
    by_cases hd : isPySpace d = true
    · rw [collapseSpaces_cons_space hd] at h
      obtain rfl : ' ' = x := by simpa using h
      simp [isPySpace] at hx
    · rw [collapseSpaces_cons_not (by simpa using hd)] at h
      simpa using h

theorem head?_collapseSpaces_space {m : List Char} {x : Char}
    (h : (collapseSpaces m).head? = some x) (hx : isPySpace x = true) :
    ∃ d, m.head? = some d ∧ isPySpace d = true := by
  cases m with
  | nil => rw [collapseSpaces_nil] at h; simp at h
  | cons d ds =>
    by_cases hd : isPySpace d = true
    · exact ⟨d, rfl, hd⟩
    · rw [collapseSpaces_cons_not (by simpa using hd)] at h
      obtain rfl : d = x := by simpa using h
      exact absurd hx (by simpa using hd)

theorem spacesSimple_collapseSpaces : ∀ l, SpacesSimple (collapseSpaces l) := by
  intro l
  induction l using collapseSpaces.induct with
  | case1 => intro c hc; rw [collapseSpaces_nil] at hc; simp at hc
  | case2 c cs hc ih =>
    rw [collapseSpaces_cons_space hc]
    intro e he hsp
    rcases List.mem_cons.mp he with rfl | he
    · rfl
    · exact ih e he hsp
  | case3 c cs hc ih =>
    rw [collapseSpaces_cons_not (by simpa using hc)]
    intro e he hsp
    rcases List.mem_cons.mp he with rfl | he
    · exact absurd hsp (by simpa using hc)
    · exact ih e he hsp

theorem noAdjSpace_collapseSpaces : ∀ l, NoAdjSpace (collapseSpaces l) := by
  intro l
  induction l using collapseSpaces.induct with
  | case1 =>
    intro a b hab
    rw [collapseSpaces_nil, List.infix_nil] at hab
    simp at hab
  | case2 c cs hc ih =>
    rw [collapseSpaces_cons_space hc]
    refine noAdjSpace_cons (fun b hb hcon => ?_) ih
    obtain ⟨d, hd, hds⟩ := head?_collapseSpaces_space hb hcon.2
    exact absurd hds (by simp [head?_dropWhile_not hd])
  | case3 c cs hc ih =>
    rw [collapseSpaces_cons_not (by simpa using hc)]
    refine noAdjSpace_cons (fun b hb hcon => hc hcon.1) ih

theorem head?_subSpecialRuns_special {m : List Char} {x : Char}
    (h : (subSpecialRuns m).head? = some x) (hx : isSpecial x = true) :
    m.head? = some x := by
  cases m with
  | nil => rw [subSpecialRuns_nil] at h; simp at h
  | cons d ds =>
    by_cases hd : isSpecial d = true ∧ 2 ≤ (ds.takeWhile isSpecial).length
    · rw [subSpecialRuns_cons_long hd.1 hd.2] at h
      obtain rfl : ' ' = x := by simpa using h
      simp [isSpecial, isPySpace] at hx
    · rw [subSpecialRuns_cons_short hd] at h
      simpa using h

theorem pair_prefix_subSpecialRuns {m : List Char} {b e : Char}
    (h : [b, e] <+: subSpecialRuns m)
    (hb : isSpecial b = true) (he : isSpecial e = true) : [b, e] <+: m := by
  cases m with
  | nil =>
    rw [subSpecialRuns_nil, List.prefix_nil] at h
    simp at h
  | cons d ds =>
    by_cases hd : isSpecial d = true ∧ 2 ≤ (ds.takeWhile isSpecial).length
    · rw [subSpecialRuns_cons_long hd.1 hd.2] at h
      obtain ⟨hbsp, -⟩ := List.cons_prefix_cons.mp h
      rw [hbsp] at hb
      simp [isSpecial, isPySpace] at hb
    · rw [subSpecialRuns_cons_short hd] at h
      obtain ⟨rfl, he2⟩ := List.cons_prefix_cons.mp h
      have hhead : (subSpecialRuns ds).head? = some e := by
        rw [isPrefix_head?_eq he2 (by simp)]
        rfl
      have hds := head?_subSpecialRuns_special hhead he
      obtain ⟨ds', rfl⟩ : ∃ ds', ds = e :: ds' := by
        cases ds with
        | nil => simp at hds
        | cons z zs =>
          obtain rfl : z = e := by simpa using hds
          exact ⟨zs, rfl⟩
      exact List.cons_prefix_cons.mpr ⟨rfl, List.cons_prefix_cons.mpr ⟨rfl, List.nil_prefix⟩⟩

theorem noTriple_subSpecialRuns : ∀ l, NoTriple (subSpecialRuns l) := by
  intro l
  induction l using subSpecialRuns.induct with
  | case1 =>
    intro a b c h
    rw [subSpecialRuns_nil, List.infix_nil] at h
    simp at h
  | case2 c cs hcond ih =>
    obtain ⟨hc, hlen⟩ := by simpa using hcond
    rw [subSpecialRuns_cons_long hc hlen]
    exact noTriple_cons_of_head (by simp [isSpecial, isPySpace]) ih
  | case3 c cs hcond ih =>
    have hcond' : ¬(isSpecial c = true ∧ 2 ≤ (cs.takeWhile isSpecial).length) := by
      simpa using hcond
    rw [subSpecialRuns_cons_short hcond']
    refine noTriple_cons (fun b e hbe hcon => ?_) ih
    obtain ⟨h1, h2, h3⟩ := hcon
    have hbe' := pair_prefix_subSpecialRuns hbe h2 h3
    obtain ⟨m', rfl⟩ := pair_prefix_iff.mp hbe'
    refine hcond' ⟨h1, ?_⟩
    rw [List.takeWhile_cons_of_pos h2, List.takeWhile_cons_of_pos h3]
    simp

theorem pair_prefix_collapseSpaces {m : List Char} {b e : Char}
    (h : [b, e] <+: collapseSpaces m)
    (hb : isPySpace b = false) (he : isPySpace e = false) : [b, e] <+: m := by
  cases m with
  | nil =>
    rw [collapseSpaces_nil, List.prefix_nil] at h
    simp at h
  | cons d ds =>
    by_cases hd : isPySpace d = true
    · rw [collapseSpaces_cons_space hd] at h
      obtain ⟨hbsp, -⟩ := List.cons_prefix_cons.mp h
      rw [hbsp] at hb
      simp [isPySpace] at hb
    · rw [collapseSpaces_cons_not (by simpa using hd)] at h
      obtain ⟨rfl, he2⟩ := List.cons_prefix_cons.mp h
      have hhead : (collapseSpaces ds).head? = some e := by
        rw [isPrefix_head?_eq he2 (by simp)]
        rfl
      have hds := head?_collapseSpaces_not_space hhead he
      obtain ⟨ds', rfl⟩ : ∃ ds', ds = e :: ds' := by
        cases ds with
        | nil => simp at hds
        | cons z zs =>
          obtain rfl : z = e := by simpa using hds
          exact ⟨zs, rfl⟩
      exact List.cons_prefix_cons.mpr ⟨rfl, List.cons_prefix_cons.mpr ⟨rfl, List.nil_prefix⟩⟩

theorem triple_infix_collapseSpaces {a b e : Char} :
    ∀ {m : List Char}, [a, b, e] <:+: collapseSpaces m →
      isPySpace a = false → isPySpace b = false → isPySpace e = false →
      [a, b, e] <:+: m := by
  intro m
  induction m using collapseSpaces.induct with
  | case1 =>
    intro h _ _ _
    rw [collapseSpaces_nil, List.infix_nil] at h
    simp at h
  | case2 c cs hc ih =>
    intro h ha hb he
    rw [collapseSpaces_cons_space hc] at h
    rcases triple_infix_cons h with ⟨rfl, -⟩ | h
    · simp [isPySpace] at ha
    · exact List.infix_cons
        ((ih h ha hb he).trans ((List.dropWhile_suffix isPySpace).isInfix))
  | case3 c cs hc ih =>
    intro h ha hb he
    rw [collapseSpaces_cons_not (by simpa using hc)] at h
    rcases triple_infix_cons h with ⟨rfl, hbe⟩ | h
    · exact (List.cons_prefix_cons.mpr
        ⟨rfl, pair_prefix_collapseSpaces hbe hb he⟩).isInfix
    · exact List.infix_cons (ih h ha hb he)

theorem noTriple_collapseSpaces {l : List Char} (h : NoTriple l) :
    NoTriple (collapseSpaces l) := by
  intro a b e hwin hcon
  obtain ⟨h1, h2, h3⟩ := hcon
  exact h a b e
    (triple_infix_collapseSpaces hwin (not_space_of_special h1)
      (not_space_of_special h2) (not_space_of_special h3)) ⟨h1, h2, h3⟩

theorem stripList_within (l : List Char) : stripList l <:+: l :=
  ((List.rdropWhile_prefix isPySpace _).isInfix).trans
    ((List.dropWhile_suffix isPySpace).isInfix)

theorem noEdgeSpace_stripList (l : List Char) : NoEdgeSpace (stripList l) := by
  constructor
  · intro c hc
    have hne : stripList l ≠ [] := by
      intro h0
      rw [h0] at hc
      simp at hc
    have hw : (l.dropWhile isPySpace).head? = some c := by
      rw [isPrefix_head?_eq (List.rdropWhile_prefix isPySpace _) hne]
      exact hc
    exact head?_dropWhile_not hw
  · intro c hc
    have hne : stripList l ≠ [] := by
      intro h0
      rw [h0] at hc
      simp at hc
    have hlast := List.rdropWhile_last_not isPySpace (l.dropWhile isPySpace) hne
    rw [List.getLast?_eq_getLast _ hne] at hc
    obtain rfl : _ = c := by simpa using hc
    simpa using hlast

/-- All four invariants hold of every output of the cleaning pipeline. -/
theorem cleanList_invariants (l : List Char) :
    SpacesSimple (cleanList l) ∧ NoAdjSpace (cleanList l)
    ∧ NoTriple (cleanList l) ∧ NoEdgeSpace (cleanList l) := by
  rw [cleanList]
  refine ⟨spacesSimple_mono (stripList_within _) (spacesSimple_collapseSpaces _),
    noAdjSpace_mono (stripList_within _) (noAdjSpace_collapseSpaces _),
    noTriple_mono (stripList_within _) (noTriple_collapseSpaces (noTriple_subSpecialRuns _)),
    noEdgeSpace_stripList _⟩

/-! ### Each stage is the identity on already-clean text -/

theorem stripList_eq_self {l : List Char} (h : NoEdgeSpace l) : stripList l = l := by
  rw [stripList]
  have h1 : l.dropWhile isPySpace = l := by
    cases l with
    | nil => rfl
    | cons a as => rw [List.dropWhile_cons_of_neg (by simp [h.1 a rfl])]
  rw [h1, List.rdropWhile_eq_self_iff]
  intro hl
  simp [h.2 (l.getLast hl) (List.getLast?_eq_getLast l hl)]

theorem collapseSpaces_eq_self : ∀ {l : List Char},
    SpacesSimple l → NoAdjSpace l → collapseSpaces l = l := by
  intro l
  induction l using collapseSpaces.induct with
  | case1 => intro _ _; rw [collapseSpaces_nil]
  | case2 c cs hc ih =>
    intro h1 h2
    have hdrop : cs.dropWhile isPySpace = cs := by
      cases cs with
      | nil => rfl
      | cons d ds =>
        have hpair := h2 c d ⟨[], ds, by simp⟩
        have hd : isPySpace d = false := by
          rcases Bool.eq_false_or_eq_true (isPySpace d) with h | h
          · exact absurd ⟨hc, h⟩ hpair
          · exact h
        rw [List.dropWhile_cons_of_neg (by simp [hd])]
    rw [hdrop] at ih
    rw [collapseSpaces_cons_space hc, hdrop,
      ih (fun x hx => h1 x (List.mem_cons_of_mem _ hx)) (noAdjSpace_tail h2),
      h1 c (by simp) hc]
  | case3 c cs hc ih =>
    intro h1 h2
    rw [collapseSpaces_cons_not (by simpa using hc),
      ih (fun x hx => h1 x (List.mem_cons_of_mem _ hx)) (noAdjSpace_tail h2)]

theorem subSpecialRuns_eq_self : ∀ {l : List Char},
    NoTriple l → subSpecialRuns l = l := by
  intro l
  induction l using subSpecialRuns.induct with
  | case1 => intro _; rw [subSpecialRuns_nil]
  | case2 c cs hcond ih =>
    intro h
    obtain ⟨hc, hlen⟩ : isSpecial c = true ∧ 2 ≤ (cs.takeWhile isSpecial).length := by
      simpa using hcond
    obtain ⟨d, e, t, rfl, hd, he⟩ :
        ∃ d e t, cs = d :: e :: t ∧ isSpecial d = true ∧ isSpecial e = true := by
      cases cs with
      | nil => simp at hlen
      | cons d ds =>
        by_cases hd : isSpecial d = true
        · cases ds with
          | nil =>
            rw [List.takeWhile_cons_of_pos hd] at hlen
            simp at hlen
          | cons e t =>
            by_cases he : isSpecial e = true
            · exact ⟨d, e, t, rfl, hd, he⟩
            · rw [List.takeWhile_cons_of_pos hd,
                List.takeWhile_cons_of_neg (by simpa using he)] at hlen
              simp at hlen
        · rw [List.takeWhile_cons_of_neg (by simpa using hd)] at hlen
          simp at hlen
    exact absurd ⟨hc, hd, he⟩ (h c d e ⟨[], t, by simp⟩)
  | case3 c cs hcond ih =>
    intro h
    rw [subSpecialRuns_cons_short (by simpa using hcond), ih (noTriple_tail h)]

theorem intercalate_cons_ne {w : List Char} {ws : List (List Char)} (h : ws ≠ []) :
    List.intercalate [' '] (w :: ws) = w ++ ' ' :: List.intercalate [' '] ws := by
  cases ws with
  | nil => exact absurd rfl h
  | cons w' ws' =>
    rw [List.intercalate, List.intercalate, List.intersperse_cons_cons]
    simp

theorem joinSplit_eq_self_aux : ∀ (n : ℕ) (l : List Char), l.length ≤ n →
    SpacesSimple l → NoAdjSpace l → NoEdgeSpace l → joinSplit l = l := by
  intro n
  induction n with
  | zero =>
    intro l hl _ _ _
    obtain rfl : l = [] := List.length_eq_zero.mp (Nat.le_zero.mp hl)
    rw [joinSplit, pySplit_nil]
    rfl
  | succ n ih =>
    intro l hl h1 h2 h3
    cases l with
    | nil =>
      rw [joinSplit, pySplit_nil]
      rfl
    | cons c cs =>
      have hc : isPySpace c = false := h3.1 c rfl
      rw [joinSplit, pySplit_cons_word hc]
      obtain ⟨t, ht⟩ : ∃ t, cs.takeWhile (fun x => !isPySpace x) = t := ⟨_, rfl⟩
      obtain ⟨rest, hrest⟩ : ∃ rest, cs.dropWhile (fun x => !isPySpace x) = rest := ⟨_, rfl⟩
      have hcs : t ++ rest = cs := by
        rw [← ht, ← hrest]
        exact List.takeWhile_append_dropWhile _ _
      rw [ht, hrest]
      subst hcs
      cases rest with
      | nil =>
        rw [pySplit_nil, List.intercalate, List.intersperse_single]
        simp
      | cons s r =>
        have hs : isPySpace s = true := by
          have hh := head?_dropWhile_not (p := fun x => !isPySpace x)
            (m := t ++ s :: r) (d := s) (by rw [hrest]; rfl)
          simpa using hh
        have hs' : s = ' ' :=
          h1 s (List.mem_cons_of_mem _ (List.mem_append_right _ (by simp))) hs
        cases r with
        | nil =>
          exfalso
          have hlast : (c :: (t ++ [s])).getLast? = some s := by
            rw [show c :: (t ++ [s]) = (c :: t) ++ [s] by simp, List.getLast?_append]
            rfl
          have := h3.2 s hlast
          rw [hs] at this
          exact Bool.true_eq_false.mp this
        | cons d r' =>
          have hwin : [s, d] <:+: c :: (t ++ s :: d :: r') := ⟨c :: t, r', by simp⟩
          have hd : isPySpace d = false := by
            rcases Bool.eq_false_or_eq_true (isPySpace d) with h | h
            · exact absurd ⟨hs, h⟩ (h2 s d hwin)
            · exact h
          rw [pySplit_cons_space hs,
            intercalate_cons_ne (by rw [pySplit_cons_word hd]; simp)]
          have hlen : (d :: r').length ≤ n := by
            simp only [List.length_cons, List.length_append] at hl ⊢
            omega
          have hss : SpacesSimple (d :: r') := fun x hx hxs =>
            h1 x (List.mem_cons_of_mem _
              (List.mem_append_right _ (List.mem_cons_of_mem _ hx))) hxs
          have hsuf : (d :: r') <:+: c :: (t ++ s :: d :: r') :=
            ⟨c :: t ++ [s], [], by simp⟩
          have hadj : NoAdjSpace (d :: r') := noAdjSpace_mono hsuf h2
          have hedge : NoEdgeSpace (d :: r') := by
            constructor
            · intro x hx
              obtain rfl : d = x := by simpa using hx
              exact hd
            · intro x hx
              refine h3.2 x ?_
              rw [show c :: (t ++ s :: d :: r') = (c :: t ++ [s]) ++ (d :: r') by simp,
                List.getLast?_append, hx]
              rfl
          have hjs := ih (d :: r') hlen hss hadj hedge
          rw [joinSplit] at hjs
          rw [hjs, hs']
          simp

theorem cleanList_eq_self {l : List Char}
    (h1 : SpacesSimple l) (h2 : NoAdjSpace l) (h3 : NoTriple l) (h4 : NoEdgeSpace l) :
    cleanList l = l := by
  rw [cleanList, joinSplit_eq_self_aux l.length l le_rfl h1 h2 h4,
    subSpecialRuns_eq_self h3, collapseSpaces_eq_self h1 h2, stripList_eq_self h4]

theorem cleanList_idem (l : List Char) : cleanList (cleanList l) = cleanList l := by
  obtain ⟨i1, i2, i3, i4⟩ := cleanList_invariants l
  exact cleanList_eq_self i1 i2 i3 i4

/-- C10: `clean_for_embedding` is idempotent — its output has single collapsed
spaces, no leading or trailing whitespace, and no remaining run of three or
more special characters, so applying it a second time changes nothing. -/
theorem clean_for_embedding_idempotent (t : String) :
    clean_for_embedding (clean_for_embedding t) = clean_for_embedding t := by
  by_cases ht : t = ""
  · subst ht
    rfl
  · have h1 : clean_for_embedding t = String.mk (cleanList t.data) := by
      rw [clean_for_embedding, if_neg ht]
    rw [h1]
    by_cases hy : String.mk (cleanList t.data) = ""
    · rw [clean_for_embedding, if_pos hy]
      exact hy.symm
    · rw [clean_for_embedding, if_neg hy]
      rw [show (String.mk (cleanList t.data)).data = cleanList t.data from rfl]
      rw [cleanList_idem]
